import Mathlib

/-!
Verification of the command-dispatch core of the mini shell in `src/shell.cpp`.

Each definition in the `MiniShell` namespace is a shallow embedding of the
corresponding C++ function (same name where possible).  Strings are Lean
`String`s, `std::vector<string>` is `List String`, the `pair<..., string>`
error convention becomes `Option String` (with `some msg` for a non-empty
error string), and the early-`return`/`continue` control flow of `main` is
made explicit as an `Outcome` value describing what the shell does with one
input line.  Definitions whose names start with `spec` are transcriptions of
the natural-language specification, used to compare the code against it.
-/

namespace MiniShell

/-- C `isspace` in the default locale (the set used by `tokenize`). -/
def isSpaceChar (c : Char) : Bool :=
  c = ' ' || c = '\t' || c = '\n' || c = '\x0b' || c = '\x0c' || c = '\r'

/-- The whitespace set of `trim` in `main` (`" \t\n\r"`, note: no `\v`/`\f`). -/
def isTrimSpace (c : Char) : Bool :=
  c = ' ' || c = '\t' || c = '\n' || c = '\r'

/-- `trim` from shell.cpp: drop leading and trailing `" \t\n\r"` characters. -/
def trim (s : String) : String :=
  String.mk (((s.data.dropWhile isTrimSpace).reverse.dropWhile isTrimSpace).reverse)

/-- The character loop of `tokenize` (shell.cpp lines 52-74): state is the
current partial token `cur`, the `in_quote` flag and the accumulated tokens. -/
def tokLoop : List Char → List Char → Bool → List String → List String × List Char × Bool
  | [], cur, inq, acc => (acc, cur, inq)
  | c :: cs, cur, inq, acc =>
    if c = '"' then tokLoop cs cur (!inq) acc
    else if !inq && isSpaceChar c then
      if cur = [] then tokLoop cs [] inq acc
      else tokLoop cs [] inq (acc ++ [String.mk cur])
    else tokLoop cs (cur ++ [c]) inq acc

/-- Flush the pending partial token (shell.cpp lines 76-77). -/
def flushTok (acc : List String) (cur : List Char) : List String :=
  acc ++ (if cur = [] then [] else [String.mk cur])

/-- `tokenize` from shell.cpp (lines 46-85): whitespace-splitting outside
double quotes; quote characters toggle the quoting mode and are dropped; an
unterminated quote yields zero tokens and an error message. -/
def tokenize (line : String) : List String × Option String :=
  if (tokLoop line.data [] false []).2.2 then ([], some "Error: Unterminated quote")
  else (flushTok (tokLoop line.data [] false []).1 (tokLoop line.data [] false []).2.1, none)

/-- `isOperator` from shell.cpp (lines 88-91). -/
def isOperator (s : String) : Bool :=
  decide (s = "<" ∨ s = ">" ∨ s = "|" ∨ s = "&")

/-- `validate_redirection` from shell.cpp (lines 93-132), written as the
structural recursion over suffixes that the index loop performs: at every
`<`/`>` token it checks for a missing filename, an operator immediately
after, and a same-direction duplicate anywhere from two positions onward. -/
def validate_redirection : List String → Option String
  | [] => none
  | [t] =>
    if t = "<" ∨ t = ">" then some ("Error: " ++ t ++ " operator missing filename")
    else none
  | t :: u :: rest =>
    if t = "<" ∨ t = ">" then
      if isOperator u then some ("Error: " ++ t ++ " operator followed by another operator")
      else if t = "<" ∧ "<" ∈ rest then some "Error: Multiple input redirections not supported"
      else if t = ">" ∧ ">" ∈ rest then some "Error: Multiple output redirections not supported"
      else validate_redirection (u :: rest)
    else validate_redirection (u :: rest)

/-- The loop of `split_pipe` (shell.cpp lines 136-161); `none` models the
early error return (`cerr` plus `{{}, {}}`) on a second `|`. -/
def splitLoop : List String → Bool → List String → List String →
    Option (List String × List String)
  | [], _, c1, c2 => some (c1, c2)
  | t :: rest, seen, c1, c2 =>
    if t = "|" then
      if seen then none else splitLoop rest true c1 c2
    else if seen then splitLoop rest seen c1 (c2 ++ [t])
    else splitLoop rest seen (c1 ++ [t]) c2

/-- `split_pipe` from shell.cpp (lines 136-161). -/
def split_pipe (tokens : List String) : Option (List String × List String) :=
  splitLoop tokens false [] []

/-- `std::stoi` on the strings the shell passes it: skip leading whitespace,
an optional sign, then base-10 digits; `none` models the
`std::invalid_argument` exception thrown when no digits are found.
(The `out_of_range` case is abstracted away by using unbounded `Int`.) -/
def stoi (s : String) : Option Int :=
  let cs := s.data.dropWhile isSpaceChar
  let p : Bool × List Char :=
    match cs with
    | '-' :: r => (true, r)
    | '+' :: r => (false, r)
    | _ => (false, cs)
  let ds := p.2.takeWhile Char.isDigit
  if ds = [] then none
  else
    let n : Nat := ds.foldl (fun n c => 10 * n + (c.toNat - '0'.toNat)) 0
    some (if p.1 then -(n : Int) else (n : Int))

/-- The single-command redirection-extraction loop of `main`
(shell.cpp lines 271-287): `<`/`>` followed by a token consume that token
as the input/output file; every other token (including a trailing bare
`<`/`>`, which the C++ `i + 1 < size` guard lets through) is appended. -/
def extractRedir : List String → String → String → List String × String × String
  | [], inf, outf => ([], inf, outf)
  | [t], inf, outf => ([t], inf, outf)
  | t :: u :: rest, inf, outf =>
    if t = "<" then extractRedir rest u outf
    else if t = ">" then extractRedir rest inf u
    else
      let r := extractRedir (u :: rest) inf outf
      (t :: r.1, r.2.1, r.2.2)

/-- The left-side cleaning loop of the pipeline path (shell.cpp lines
370-384): `<` consumes the next token as the input file; a bare `>` or `|`
is dropped, but note that the token following a dropped `>` is kept. -/
def cleanLeft : List String → String → List String × String
  | [], inf => ([], inf)
  | [t], inf => if t = ">" ∨ t = "|" then ([], inf) else ([t], inf)
  | t :: u :: rest, inf =>
    if t = "<" then cleanLeft rest u
    else if t = ">" ∨ t = "|" then cleanLeft (u :: rest) inf
    else
      let r := cleanLeft (u :: rest) inf
      (t :: r.1, r.2)

/-- The right-side cleaning loop of the pipeline path (shell.cpp lines
386-400): `>` consumes the next token as the output file; a bare `<` or `|`
is dropped, but the token following a dropped `<` is kept. -/
def cleanRight : List String → String → List String × String
  | [], outf => ([], outf)
  | [t], outf => if t = "<" ∨ t = "|" then ([], outf) else ([t], outf)
  | t :: u :: rest, outf =>
    if t = ">" then cleanRight rest u
    else if t = "<" ∨ t = "|" then cleanRight (u :: rest) outf
    else
      let r := cleanRight (u :: rest) outf
      (t :: r.1, r.2)

/-- `if (cmd2.empty()) cmd2 = cmd1;` (shell.cpp lines 230-233). -/
def resolveCmd2 (c1 c2 : List String) : List String :=
  if c2 = [] then c1 else c2

/-- `bool has_pipe = (cmd2 != cmd1);` (shell.cpp line 235), applied to the
raw `split_pipe` results. -/
def hasPipeFlag (c1 c2 : List String) : Bool :=
  decide (resolveCmd2 c1 c2 ≠ c1)

/-- Background-marker stripping (shell.cpp lines 209-216): a trailing `&`
token sets the background flag and is removed. -/
def stripBg (toks : List String) : Bool × List String :=
  if toks.getLast? = some "&" then (true, toks.dropLast) else (false, toks)

/-- What the shell decides to do with one line, after tokenization: the
constructors record the observable action of `main`'s dispatch
(shell.cpp lines 198-510) for a single REPL iteration. -/
inductive Outcome where
  /-- Blank input (or a lone `&`): re-prompt silently. -/
  | emptyLine : Outcome
  /-- `tokenize` failed; the message is printed and the line discarded. -/
  | lexError (msg : String) : Outcome
  /-- `validate_redirection` failed; message printed, line discarded. -/
  | redirError (msg : String) : Outcome
  /-- `split_pipe` saw a second `|`: its message is printed, no process. -/
  | pipeManyError : Outcome
  /-- `cmd1` empty after splitting: the line is silently discarded. -/
  | discarded : Outcome
  /-- `exit` built-in: the interpreter process returns `code`. -/
  | exitShell (code : Int) : Outcome
  /-- `stoi` threw on the `exit` argument: uncaught exception, abnormal
  termination of the interpreter. -/
  | crash : Outcome
  /-- `cd` built-in, run in the shell process; `none` means `$HOME`. -/
  | builtinCd (path : Option String) : Outcome
  /-- Single-command path with an empty argv after extraction: discarded. -/
  | emptyCommand : Outcome
  /-- Fork one child with this argv and redirections. -/
  | launchSingle (argv : List String) (inputFile outputFile : String)
      (bg : Bool) : Outcome
  /-- Dead guard `cmd1.empty() || cmd2.empty()` in the pipe path. -/
  | pipeNeedsTwo : Outcome
  /-- A pipe side became empty after cleaning: error, no process. -/
  | pipeEmptyError : Outcome
  /-- Fork two children connected by a pipe. -/
  | launchPipe (argv1 : List String) (inputFile : String)
      (argv2 : List String) (outputFile : String) (bg : Bool) : Outcome
  deriving DecidableEq, Repr

/-- Dispatch of `main` on the background-stripped token list `t0 :: rest`
(shell.cpp lines 217-510), in the source's order: redirection validation,
pipe splitting, the empty-`cmd1` discard, the `exit` and `cd` built-ins on
the first token, then the single-command or pipeline launch path. -/
def dispatch (bg : Bool) (t0 : String) (rest : List String) : Outcome :=
  match validate_redirection (t0 :: rest) with
  | some e => .redirError e
  | none =>
    match split_pipe (t0 :: rest) with
    | none => .pipeManyError
    | some (c1, c2) =>
      if c1 = [] then .discarded
      else
        let cmd2 := resolveCmd2 c1 c2
        if t0 = "exit" then
          match rest with
          | [] => .exitShell 0
          | a :: _ =>
            match stoi a with
            | some k => .exitShell k
            | none => .crash
        else if t0 = "cd" then .builtinCd rest.head?
        else if hasPipeFlag c1 c2 then
          if c1 = [] ∨ cmd2 = [] then .pipeNeedsTwo
          else
            let l := cleanLeft c1 ""
            let r := cleanRight cmd2 ""
            if l.1 = [] ∨ r.1 = [] then .pipeEmptyError
            else .launchPipe l.1 l.2 r.1 r.2 bg
        else
          let e := extractRedir c1 "" ""
          if e.1 = [] then .emptyCommand
          else .launchSingle e.1 e.2.1 e.2.2 bg

/-- One REPL iteration on an already-tokenized line. -/
def processTokens (toks0 : List String) : Outcome :=
  match toks0 with
  | [] => .emptyLine
  | _ :: _ =>
    match (stripBg toks0).2, (stripBg toks0).1 with
    | [], _ => .emptyLine
    | t0 :: rest, bg => dispatch bg t0 rest

/-- One REPL iteration on a raw input line (trim, tokenize, dispatch). -/
def processLine (line : String) : Outcome :=
  let t := trim line
  if t = "" then .emptyLine
  else
    match tokenize t with
    | (_, some e) => .lexError e
    | (toks, none) => processTokens toks

/-- Specification-side description of whitespace splitting: the maximal runs
of non-space characters of the input (with `cur` the run in progress), used
to state what `tokenize` actually does to a quote-free line. -/
def wordsAux : List Char → List Char → List String
  | [], cur => if cur = [] then [] else [String.mk cur]
  | c :: cs, cur =>
    if isSpaceChar c then
      (if cur = [] then [] else [String.mk cur]) ++ wordsAux cs []
    else wordsAux cs (cur ++ [c])

theorem tokLoop_inq (cs : List Char) : ∀ cur inq acc,
    (tokLoop cs cur inq acc).2.2 = if cs.count '"' % 2 = 0 then inq else !inq := by
  induction cs with
  | nil => intro cur inq acc; simp [tokLoop]
  | cons c cs ih =>
    intro cur inq acc
    by_cases hc : c = '"'
    · subst hc
      have hcount : (('"' :: cs).count '"') = cs.count '"' + 1 := by
        simp [List.count_cons]
      rw [show tokLoop ('"' :: cs) cur inq acc = tokLoop cs cur (!inq) acc from by
        simp [tokLoop]]
      rw [ih, hcount]
      rcases Nat.mod_two_eq_zero_or_one (cs.count '"') with h | h
      · have h2 : (cs.count '"' + 1) % 2 = 1 := by omega
        simp [h, h2]
      · have h2 : (cs.count '"' + 1) % 2 = 0 := by omega
        simp [h, h2]
    · have hcount : ((c :: cs).count '"') = cs.count '"' := by
        simp [List.count_cons, hc]
      simp only [tokLoop, if_neg hc]
      by_cases hs : (!inq && isSpaceChar c) = true
      · rw [if_pos hs]
        by_cases hcur : cur = []
        · rw [if_pos hcur, ih, hcount]
        · rw [if_neg hcur, ih, hcount]
      · rw [if_neg hs, ih, hcount]

theorem tokLoop_noQuote (cs : List Char) (h : '"' ∉ cs) : ∀ cur acc,
    flushTok (tokLoop cs cur false acc).1 (tokLoop cs cur false acc).2.1 =
      acc ++ wordsAux cs cur := by
  induction cs with
  | nil => intro cur acc; simp [tokLoop, flushTok, wordsAux]
  | cons c cs ih =>
    intro cur acc
    have hc : ¬c = '"' := fun hh => h (hh ▸ List.mem_cons_self c cs)
    have hmem : '"' ∉ cs := fun hh => h (List.mem_cons_of_mem c hh)
    simp only [tokLoop, if_neg hc, Bool.not_false, Bool.true_and, wordsAux]
    by_cases hs : isSpaceChar c = true
    · rw [if_pos hs, if_pos hs]
      by_cases hcur : cur = []
      · rw [if_pos hcur, ih hmem, hcur, if_pos rfl, List.nil_append]
      · rw [if_neg hcur, ih hmem, if_neg hcur, List.append_assoc, List.singleton_append]
    · rw [if_neg hs, if_neg hs, ih hmem]

theorem tokLoop_noQuote_inq (cs : List Char) (h : '"' ∉ cs) (cur : List Char)
    (acc : List String) : (tokLoop cs cur false acc).2.2 = false := by
  rw [tokLoop_inq]
  have : cs.count '"' = 0 := List.count_eq_zero.mpr h
  simp [this]

/-- On a quote-free line, `tokenize` returns exactly the maximal runs of
non-whitespace characters, in order, with no error. -/
theorem tokenize_noQuote (s : String) (h : '"' ∉ s.data) :
    tokenize s = (wordsAux s.data [], none) := by
  unfold tokenize
  rw [tokLoop_noQuote_inq s.data h [] []]
  simp only [Bool.false_eq_true, if_false]
  rw [show (wordsAux s.data [] = [] ++ wordsAux s.data []) by rw [List.nil_append]]
  rw [← tokLoop_noQuote s.data h [] []]

/-- `tokenize` fails (returning no tokens and the unterminated-quote
message) exactly when the line contains an odd number of `"` characters. -/
theorem tokenize_error_iff (s : String) :
    tokenize s = ([], some "Error: Unterminated quote") ↔
      s.data.count '"' % 2 = 1 := by
  unfold tokenize
  have hq := tokLoop_inq s.data [] false []
  rcases Nat.mod_two_eq_zero_or_one (s.data.count '"') with h | h
  · rw [h, if_pos rfl] at hq
    rw [hq]
    simp only [Bool.false_eq_true, if_false]
    constructor
    · intro hcontra
      have := congrArg Prod.snd hcontra
      simp at this
    · intro hcontra; omega
  · rw [h, if_neg (by omega : ¬(1 : Nat) = 0)] at hq
    rw [hq]
    simp [h]

/-- Specification-side shape (a) of the SyntaxValidator: a redirection
operator with no token after it, i.e. as the last token. -/
def specDangling : List String → Bool
  | [] => false
  | [t] => decide (t = "<" ∨ t = ">")
  | _ :: u :: rest => specDangling (u :: rest)

/-- Specification-side shape (b): a `<`/`>` token immediately followed by
one of `<`, `>`, `|`, `&`. -/
def specOpAfterOp : List String → Bool
  | [] => false
  | [_] => false
  | t :: u :: rest =>
    (decide (t = "<" ∨ t = ">") && isOperator u) || specOpAfterOp (u :: rest)

/-- The validator accepts a token sequence exactly when none of the three
rejected shapes is present: no dangling redirection operator, no operator
immediately after a redirection operator, and at most one `<` and one `>`
in the whole sequence. -/
theorem validate_none_iff (ts : List String) :
    validate_redirection ts = none ↔
      (specDangling ts = false ∧ specOpAfterOp ts = false ∧
        ts.count "<" ≤ 1 ∧ ts.count ">" ≤ 1) := by
  induction ts using validate_redirection.induct with
  | case1 => simp [validate_redirection, specDangling, specOpAfterOp]
  | case2 t h =>
    simp [validate_redirection, specDangling, h]
  | case3 t h =>
    have h1 : ¬t = "<" := fun hh => h (Or.inl hh)
    have h2 : ¬t = ">" := fun hh => h (Or.inr hh)
    simp [validate_redirection, specDangling, specOpAfterOp, h, List.count_cons, h1, h2]
  | case4 t u rest h hop =>
    simp [validate_redirection, specOpAfterOp, h, hop]
  | case5 t u rest h hop hdup =>
    obtain ⟨ht, hmem⟩ := hdup
    have hu : ¬u = "<" := by
      intro hh; apply hop; simp [isOperator, hh]
    have hcnt : 1 ≤ rest.count "<" := List.count_pos_iff.mpr hmem
    have hge : ¬((t :: u :: rest).count "<" ≤ 1) := by
      simp only [List.count_cons, ht]
      simp [hu]
      omega
    have hval : validate_redirection (t :: u :: rest) =
        some "Error: Multiple input redirections not supported" := by
      simp only [validate_redirection, if_pos h, if_neg hop,
        if_pos (show t = "<" ∧ "<" ∈ rest from ⟨ht, hmem⟩)]
    rw [hval]
    constructor
    · intro hcontra; simp at hcontra
    · intro hcontra
      exact absurd hcontra.2.2.1 hge
  | case6 t u rest h hop hd1 hdup =>
    obtain ⟨ht, hmem⟩ := hdup
    have hu : ¬u = ">" := by
      intro hh; apply hop; simp [isOperator, hh]
    have hcnt : 1 ≤ rest.count ">" := List.count_pos_iff.mpr hmem
    have hge : ¬((t :: u :: rest).count ">" ≤ 1) := by
      simp only [List.count_cons, ht]
      simp [hu]
      omega
    have hval : validate_redirection (t :: u :: rest) =
        some "Error: Multiple output redirections not supported" := by
      simp only [validate_redirection, if_pos h, if_neg hop, if_neg hd1,
        if_pos (show t = ">" ∧ ">" ∈ rest from ⟨ht, hmem⟩)]
    rw [hval]
    constructor
    · intro hcontra; simp at hcontra
    · intro hcontra
      exact absurd hcontra.2.2.2 hge
  | case7 t u rest h hop hd1 hd2 ih =>
    have hrw : validate_redirection (t :: u :: rest) = validate_redirection (u :: rest) := by
      simp only [validate_redirection, if_pos h, if_neg hop, if_neg hd1, if_neg hd2]
    have hsd : specDangling (t :: u :: rest) = specDangling (u :: rest) := rfl
    have hso : specOpAfterOp (t :: u :: rest) = specOpAfterOp (u :: rest) := by
      simp only [specOpAfterOp]
      simp [hop]
    have huop : ¬u = "<" ∧ ¬u = ">" := by
      constructor <;> intro hh <;> apply hop <;> simp [isOperator, hh]
    rw [hrw, ih, hsd, hso]
    rcases h with ht | ht
    · have hmem : "<" ∉ rest := fun hm => hd1 ⟨ht, hm⟩
      have hc0 : rest.count "<" = 0 := List.count_eq_zero.mpr hmem
      have hc1 : (t :: u :: rest).count "<" = 1 := by
        simp [List.count_cons, ht, huop.1, hc0]
      have hc2 : (u :: rest).count "<" = 0 := by
        simp [List.count_cons, huop.1, hc0]
      have hc3 : (t :: u :: rest).count ">" = (u :: rest).count ">" := by
        have : ¬t = ">" := by rw [ht]; decide
        simp [List.count_cons, this]
      constructor
      · rintro ⟨a, b, c, d⟩
        exact ⟨a, b, by omega, by omega⟩
      · rintro ⟨a, b, c, d⟩
        exact ⟨a, b, by omega, by omega⟩
    · have hmem : ">" ∉ rest := fun hm => hd2 ⟨ht, hm⟩
      have hc0 : rest.count ">" = 0 := List.count_eq_zero.mpr hmem
      have hc1 : (t :: u :: rest).count ">" = 1 := by
        simp [List.count_cons, ht, huop.2, hc0]
      have hc2 : (u :: rest).count ">" = 0 := by
        simp [List.count_cons, huop.2, hc0]
      have hc3 : (t :: u :: rest).count "<" = (u :: rest).count "<" := by
        have : ¬t = "<" := by rw [ht]; decide
        simp [List.count_cons, this]
      constructor
      · rintro ⟨a, b, c, d⟩
        exact ⟨a, b, by omega, by omega⟩
      · rintro ⟨a, b, c, d⟩
        exact ⟨a, b, by omega, by omega⟩
  | case8 t u rest h ih =>
    have h1 : ¬t = "<" := fun hh => h (Or.inl hh)
    have h2 : ¬t = ">" := fun hh => h (Or.inr hh)
    have hrw : validate_redirection (t :: u :: rest) = validate_redirection (u :: rest) := by
      simp only [validate_redirection, if_neg h]
    have hso : specOpAfterOp (t :: u :: rest) = specOpAfterOp (u :: rest) := by
      simp only [specOpAfterOp]
      simp [h]
    have hc1 : (t :: u :: rest).count "<" = (u :: rest).count "<" := by
      simp [List.count_cons, h1]
    have hc2 : (t :: u :: rest).count ">" = (u :: rest).count ">" := by
      simp [List.count_cons, h2]
    rw [hrw, ih, show specDangling (t :: u :: rest) = specDangling (u :: rest) from rfl, hso]
    constructor
    · rintro ⟨a, b, c, d⟩
      exact ⟨a, b, by omega, by omega⟩
    · rintro ⟨a, b, c, d⟩
      exact ⟨a, b, by omega, by omega⟩

theorem splitLoop_none_iff (rest : List String) : ∀ (seen : Bool) c1 c2,
    splitLoop rest seen c1 c2 = none ↔
      (if seen then 1 else 2) ≤ rest.count "|" := by
  induction rest with
  | nil =>
    intro seen c1 c2
    constructor
    · intro hcontra; simp [splitLoop] at hcontra
    · intro hcontra
      simp at hcontra
      cases seen <;> simp_all
  | cons t rest ih =>
    intro seen c1 c2
    by_cases ht : t = "|"
    · subst ht
      have hcount : (("|" : String) :: rest).count "|" = rest.count "|" + 1 := by
        simp [List.count_cons]
      cases seen
      · have hstep : splitLoop ("|" :: rest) false c1 c2 = splitLoop rest true c1 c2 := by
          simp [splitLoop]
        rw [hstep, ih, hcount, show ((if true = true then 1 else 2 : Nat) = 1) from rfl,
          show ((if false = true then 1 else 2 : Nat) = 2) from rfl]
        omega
      · have hstep : splitLoop ("|" :: rest) true c1 c2 = none := by
          simp [splitLoop]
        rw [hstep, hcount, show ((if true = true then 1 else 2 : Nat) = 1) from rfl]
        constructor
        · intro _; omega
        · intro _; rfl
    · have hcount : (t :: rest).count "|" = rest.count "|" := by
        simp [List.count_cons, ht]
      cases seen
      · have : splitLoop (t :: rest) false c1 c2 = splitLoop rest false (c1 ++ [t]) c2 := by
          simp [splitLoop, ht]
        rw [this, ih, hcount]
      · have : splitLoop (t :: rest) true c1 c2 = splitLoop rest true c1 (c2 ++ [t]) := by
          simp [splitLoop, ht]
        rw [this, ih, hcount]

theorem splitLoop_seen_no_pipe (rest : List String) (h : "|" ∉ rest) :
    ∀ c1 c2, splitLoop rest true c1 c2 = some (c1, c2 ++ rest) := by
  induction rest with
  | nil => intro c1 c2; simp [splitLoop]
  | cons t rest ih =>
    intro c1 c2
    have ht : ¬t = "|" := fun hh => h (hh ▸ List.mem_cons_self t rest)
    have hmem : "|" ∉ rest := fun hh => h (List.mem_cons_of_mem t hh)
    have : splitLoop (t :: rest) true c1 c2 = splitLoop rest true c1 (c2 ++ [t]) := by
      simp [splitLoop, ht]
    rw [this, ih hmem, List.append_assoc, List.singleton_append]

theorem splitLoop_unseen_no_pipe (rest : List String) (h : "|" ∉ rest) :
    ∀ c1 c2, splitLoop rest false c1 c2 = some (c1 ++ rest, c2) := by
  induction rest with
  | nil => intro c1 c2; simp [splitLoop]
  | cons t rest ih =>
    intro c1 c2
    have ht : ¬t = "|" := fun hh => h (hh ▸ List.mem_cons_self t rest)
    have hmem : "|" ∉ rest := fun hh => h (List.mem_cons_of_mem t hh)
    have : splitLoop (t :: rest) false c1 c2 = splitLoop rest false (c1 ++ [t]) c2 := by
      simp [splitLoop, ht]
    rw [this, ih hmem, List.append_assoc, List.singleton_append]

theorem splitLoop_one_pipe (pre : List String) (hpre : "|" ∉ pre) :
    ∀ (post c1 c2 : List String), "|" ∉ post →
      splitLoop (pre ++ "|" :: post) false c1 c2 = some (c1 ++ pre, c2 ++ post) := by
  induction pre with
  | nil =>
    intro post c1 c2 hpost
    have : splitLoop ("|" :: post) false c1 c2 = splitLoop post true c1 c2 := by
      simp [splitLoop]
    rw [List.nil_append, this, splitLoop_seen_no_pipe post hpost, List.append_nil]
  | cons t pre ih =>
    intro post c1 c2 hpost
    have ht : ¬t = "|" := fun hh => hpre (hh ▸ List.mem_cons_self t pre)
    have hmem : "|" ∉ pre := fun hh => hpre (List.mem_cons_of_mem t hh)
    have : splitLoop ((t :: pre) ++ "|" :: post) false c1 c2 =
        splitLoop (pre ++ "|" :: post) false (c1 ++ [t]) c2 := by
      simp [splitLoop, ht]
    rw [this, ih hmem post (c1 ++ [t]) c2 hpost, List.append_assoc, List.singleton_append]

/-- `split_pipe` fails exactly when the token list holds two or more `|`. -/
theorem split_pipe_none_iff (ts : List String) :
    split_pipe ts = none ↔ 2 ≤ ts.count "|" := by
  unfold split_pipe
  rw [splitLoop_none_iff]
  simp

/-- A token list with no `|` splits into itself and an empty right side. -/
theorem split_pipe_no_pipe (ts : List String) (h : "|" ∉ ts) :
    split_pipe ts = some (ts, []) := by
  unfold split_pipe
  rw [splitLoop_unseen_no_pipe ts h, List.nil_append]

/-- A token list with exactly one `|` splits at it, in order. -/
theorem split_pipe_single (pre post : List String) (hpre : "|" ∉ pre)
    (hpost : "|" ∉ post) :
    split_pipe (pre ++ "|" :: post) = some (pre, post) := by
  unfold split_pipe
  rw [splitLoop_one_pipe pre hpre post [] [] hpost, List.nil_append, List.nil_append]

/-- If `splitLoop` succeeds, the returned left command extends the `c1`
accumulator; hence a successful `split_pipe` of a list with a non-pipe head
has a non-empty left command. -/
theorem splitLoop_left_extend (rest : List String) :
    ∀ (seen : Bool) c1 c2 a b, splitLoop rest seen c1 c2 = some (a, b) →
      ∃ t, a = c1 ++ t := by
  induction rest with
  | nil =>
    intro seen c1 c2 a b hs
    simp [splitLoop] at hs
    exact ⟨[], by rw [List.append_nil, hs.1]⟩
  | cons t rest ih =>
    intro seen c1 c2 a b hs
    by_cases ht : t = "|"
    · subst ht
      cases seen
      · have : splitLoop ("|" :: rest) false c1 c2 = splitLoop rest true c1 c2 := by
          simp [splitLoop]
        rw [this] at hs
        exact ih true c1 c2 a b hs
      · simp [splitLoop] at hs
    · cases seen
      · have : splitLoop (t :: rest) false c1 c2 = splitLoop rest false (c1 ++ [t]) c2 := by
          simp [splitLoop, ht]
        rw [this] at hs
        obtain ⟨x, hx⟩ := ih false (c1 ++ [t]) c2 a b hs
        exact ⟨[t] ++ x, by rw [hx, List.append_assoc]⟩
      · have : splitLoop (t :: rest) true c1 c2 = splitLoop rest true c1 (c2 ++ [t]) := by
          simp [splitLoop, ht]
        rw [this] at hs
        exact ih true c1 (c2 ++ [t]) a b hs

theorem split_pipe_head_left (t0 : String) (rest : List String) (ht : ¬t0 = "|")
    (a b : List String) (hs : split_pipe (t0 :: rest) = some (a, b)) : a ≠ [] := by
  unfold split_pipe at hs
  have hstep : splitLoop (t0 :: rest) false [] [] = splitLoop rest false [t0] [] := by
    simp [splitLoop, ht]
  rw [hstep] at hs
  obtain ⟨x, hx⟩ := splitLoop_left_extend rest false [t0] [] a b hs
  rw [hx]
  simp

/-- Well-formedness left behind by a successful validation: no `<`/`>`
token is last, and none is immediately followed by an operator. -/
def noDangling : List String → Bool
  | [] => true
  | [t] => !decide (t = "<" ∨ t = ">")
  | t :: u :: rest =>
    (!(decide (t = "<" ∨ t = ">") && isOperator u)) && noDangling (u :: rest)

theorem noDangling_tail (x : String) (l : List String)
    (h : noDangling (x :: l) = true) : noDangling l = true := by
  cases l with
  | nil => rfl
  | cons u rest =>
    simp only [noDangling, Bool.and_eq_true] at h
    exact h.2

theorem validate_none_noDangling (ts : List String) :
    validate_redirection ts = none → noDangling ts = true := by
  induction ts using validate_redirection.induct with
  | case1 => intro _; rfl
  | case2 t h =>
    intro hv
    rw [validate_redirection, if_pos h] at hv
    simp at hv
  | case3 t h =>
    intro _
    simp [noDangling, h]
  | case4 t u rest h hop =>
    intro hv
    rw [validate_redirection, if_pos h, if_pos hop] at hv
    simp at hv
  | case5 t u rest h hop hdup =>
    intro hv
    rw [validate_redirection, if_pos h, if_neg hop, if_pos hdup] at hv
    simp at hv
  | case6 t u rest h hop hd1 hdup =>
    intro hv
    rw [validate_redirection, if_pos h, if_neg hop, if_neg hd1, if_pos hdup] at hv
    simp at hv
  | case7 t u rest h hop hd1 hd2 ih =>
    intro hv
    rw [validate_redirection, if_pos h, if_neg hop, if_neg hd1, if_neg hd2] at hv
    simp only [noDangling, Bool.and_eq_true]
    refine ⟨?_, ih hv⟩
    simp only [Bool.not_eq_true', Bool.and_eq_false_iff]
    right
    simpa using hop
  | case8 t u rest h ih =>
    intro hv
    rw [validate_redirection, if_neg h] at hv
    simp only [noDangling, Bool.and_eq_true]
    refine ⟨?_, ih hv⟩
    simp [h]

theorem extractRedir_id (ts : List String) (inf outf : String) :
    "<" ∉ ts → ">" ∉ ts → extractRedir ts inf outf = (ts, inf, outf) := by
  induction ts, inf, outf using extractRedir.induct with
  | case1 inf outf => intro _ _; rfl
  | case2 t inf outf => intro _ _; rfl
  | case3 u rest inf outf ih =>
    intro h1 _
    exact absurd (List.mem_cons_self "<" (u :: rest)) h1
  | case4 u rest inf outf hne ih =>
    intro _ h2
    exact absurd (List.mem_cons_self ">" (u :: rest)) h2
  | case5 t u rest inf outf h1 h2 ih =>
    intro hm1 hm2
    have hm1r : "<" ∉ u :: rest := fun hh => hm1 (List.mem_cons_of_mem t hh)
    have hm2r : ">" ∉ u :: rest := fun hh => hm2 (List.mem_cons_of_mem t hh)
    simp only [extractRedir, if_neg h1, if_neg h2, ih hm1r hm2r]

/-- The cleaned argument vector is a subsequence of the original tokens:
the kept tokens appear in their original order. -/
theorem extractRedir_sublist (ts : List String) (inf outf : String) :
    (extractRedir ts inf outf).1.Sublist ts := by
  induction ts, inf, outf using extractRedir.induct with
  | case1 inf outf => simp [extractRedir]
  | case2 t inf outf => simp [extractRedir]
  | case3 u rest inf outf ih =>
    rw [show extractRedir ("<" :: u :: rest) inf outf = extractRedir rest u outf from by
      simp [extractRedir]]
    exact (ih.cons u).cons "<"
  | case4 u rest inf outf hne ih =>
    rw [show extractRedir (">" :: u :: rest) inf outf = extractRedir rest inf u from by
      simp [extractRedir, hne]]
    exact (ih.cons u).cons ">"
  | case5 t u rest inf outf h1 h2 ih =>
    have hstep : (extractRedir (t :: u :: rest) inf outf).1 =
        t :: (extractRedir (u :: rest) inf outf).1 := by
      simp [extractRedir, h1, h2]
    rw [hstep]
    exact ih.cons₂ t

/-- After validation, the extraction loop never keeps a `<` or `>` token. -/
theorem extractRedir_no_redir (ts : List String) (inf outf : String) :
    noDangling ts = true →
      "<" ∉ (extractRedir ts inf outf).1 ∧ ">" ∉ (extractRedir ts inf outf).1 := by
  induction ts, inf, outf using extractRedir.induct with
  | case1 inf outf => intro _; simp [extractRedir]
  | case2 t inf outf =>
    intro h
    simp only [noDangling, Bool.not_eq_eq_eq_not, Bool.not_true, decide_eq_false_iff_not] at h
    push_neg at h
    simp only [extractRedir, List.mem_singleton]
    exact ⟨fun hh => h.1 hh.symm, fun hh => h.2 hh.symm⟩
  | case3 u rest inf outf ih =>
    intro h
    simp only [noDangling, Bool.and_eq_true, Bool.not_eq_eq_eq_not, Bool.not_true,
      Bool.and_eq_false_iff] at h
    have hrest : noDangling rest = true := noDangling_tail u rest h.2
    rw [show extractRedir ("<" :: u :: rest) inf outf = extractRedir rest u outf from by
      simp [extractRedir]]
    exact ih hrest
  | case4 u rest inf outf hne ih =>
    intro h
    simp only [noDangling, Bool.and_eq_true] at h
    have hrest : noDangling rest = true := noDangling_tail u rest h.2
    rw [show extractRedir (">" :: u :: rest) inf outf = extractRedir rest inf u from by
      simp [extractRedir, hne]]
    exact ih hrest
  | case5 t u rest inf outf h1 h2 ih =>
    intro h
    simp only [noDangling, Bool.and_eq_true] at h
    have hstep : (extractRedir (t :: u :: rest) inf outf).1 =
        t :: (extractRedir (u :: rest) inf outf).1 := by
      simp [extractRedir, h1, h2]
    obtain ⟨ihl, ihr⟩ := ih h.2
    rw [hstep]
    constructor
    · intro hmem
      rcases List.mem_cons.mp hmem with hh | hh
      · exact h1 hh.symm
      · exact ihl hh
    · intro hmem
      rcases List.mem_cons.mp hmem with hh | hh
      · exact h2 hh.symm
      · exact ihr hh

/-- After validation, extraction removes exactly one pair of tokens
(operator plus filename) for each `<` and each `>` in the sequence. -/
theorem extractRedir_length (ts : List String) (inf outf : String) :
    noDangling ts = true →
      (extractRedir ts inf outf).1.length + 2 * (ts.count "<" + ts.count ">") =
        ts.length := by
  induction ts, inf, outf using extractRedir.induct with
  | case1 inf outf => intro _; simp [extractRedir]
  | case2 t inf outf =>
    intro h
    simp only [noDangling, Bool.not_eq_eq_eq_not, Bool.not_true, decide_eq_false_iff_not] at h
    push_neg at h
    simp [extractRedir, List.count_cons, h.1, h.2]
  | case3 u rest inf outf ih =>
    intro h
    simp only [noDangling, Bool.and_eq_true, Bool.not_eq_eq_eq_not, Bool.not_true,
      Bool.and_eq_false_iff] at h
    have hop : isOperator u = false := by
      rcases h.1 with hh | hh
      · simp at hh
      · exact hh
    have hu : ¬u = "<" ∧ ¬u = ">" := by
      constructor <;> intro hh <;> rw [hh] at hop <;> simp [isOperator] at hop
    have hrest : noDangling rest = true := noDangling_tail u rest h.2
    have hc1 : (("<" : String) :: u :: rest).count "<" = rest.count "<" + 1 := by
      simp [List.count_cons, hu.1]
    have hc2 : (("<" : String) :: u :: rest).count ">" = rest.count ">" := by
      simp [List.count_cons, hu.2]
    rw [show extractRedir ("<" :: u :: rest) inf outf = extractRedir rest u outf from by
      simp [extractRedir]]
    have := ih hrest
    rw [hc1, hc2]
    simp only [List.length_cons]
    omega
  | case4 u rest inf outf hne ih =>
    intro h
    simp only [noDangling, Bool.and_eq_true, Bool.not_eq_eq_eq_not, Bool.not_true,
      Bool.and_eq_false_iff] at h
    have hop : isOperator u = false := by
      rcases h.1 with hh | hh
      · simp at hh
      · exact hh
    have hu : ¬u = "<" ∧ ¬u = ">" := by
      constructor <;> intro hh <;> rw [hh] at hop <;> simp [isOperator] at hop
    have hrest : noDangling rest = true := noDangling_tail u rest h.2
    have hc1 : ((">" : String) :: u :: rest).count "<" = rest.count "<" := by
      simp [List.count_cons, hu.1]
    have hc2 : ((">" : String) :: u :: rest).count ">" = rest.count ">" + 1 := by
      simp [List.count_cons, hu.2]
    rw [show extractRedir (">" :: u :: rest) inf outf = extractRedir rest inf u from by
      simp [extractRedir, hne]]
    have := ih hrest
    rw [hc1, hc2]
    simp only [List.length_cons]
    omega
  | case5 t u rest inf outf h1 h2 ih =>
    intro h
    simp only [noDangling, Bool.and_eq_true] at h
    have hstep : (extractRedir (t :: u :: rest) inf outf).1 =
        t :: (extractRedir (u :: rest) inf outf).1 := by
      simp [extractRedir, h1, h2]
    have hc1 : (t :: u :: rest).count "<" = (u :: rest).count "<" := by
      simp [List.count_cons, h1]
    have hc2 : (t :: u :: rest).count ">" = (u :: rest).count ">" := by
      simp [List.count_cons, h2]
    have := ih h.2
    rw [hstep, hc1, hc2]
    simp only [List.length_cons] at this ⊢
    omega

/-- Outcomes on which the interpreter process itself ends (normally via the
`exit` built-in's `return`, or abnormally via the uncaught `stoi`
exception): in either case the loop never runs again and nothing is
forked. -/
def Outcome.terminatesInterp : Outcome → Bool
  | .exitShell _ => true
  | .crash => true
  | _ => false

/-- Outcomes that run the `cd` built-in inside the shell process itself. -/
def Outcome.isCdRun : Outcome → Bool
  | .builtinCd _ => true
  | _ => false

theorem stripBg_id (ts : List String) (h : ts.getLast? ≠ some "&") :
    stripBg ts = (false, ts) := by
  unfold stripBg
  rw [if_neg h]

theorem processTokens_eq_dispatch (t0 : String) (rest : List String)
    (h : (t0 :: rest).getLast? ≠ some "&") :
    processTokens (t0 :: rest) = dispatch false t0 rest := by
  unfold processTokens
  rw [stripBg_id _ h]

theorem processTokens_strip (x t1 : String) (xs rest1 : List String)
    (h : (stripBg (x :: xs)).2 = t1 :: rest1) :
    processTokens (x :: xs) = dispatch (stripBg (x :: xs)).1 t1 rest1 := by
  unfold processTokens
  rw [h]

theorem dispatch_single_eq (bg : Bool) (t0 : String) (rest c1 c2 : List String)
    (hv : validate_redirection (t0 :: rest) = none)
    (hs : split_pipe (t0 :: rest) = some (c1, c2))
    (hc1 : ¬c1 = []) (hres : resolveCmd2 c1 c2 = c1)
    (hex : ¬t0 = "exit") (hcd : ¬t0 = "cd") :
    dispatch bg t0 rest =
      (if (extractRedir c1 "" "").1 = [] then .emptyCommand
       else .launchSingle (extractRedir c1 "" "").1 (extractRedir c1 "" "").2.1
         (extractRedir c1 "" "").2.2 bg) := by
  have hflag : hasPipeFlag c1 c2 = false := by
    unfold hasPipeFlag
    rw [hres]
    simp
  unfold dispatch
  rw [hv, hs]
  simp only [if_neg hc1, if_neg hex, if_neg hcd, hflag, Bool.false_eq_true, if_false]

theorem dispatch_exit_terminates (bg : Bool) (rest c1 c2 : List String)
    (hv : validate_redirection ("exit" :: rest) = none)
    (hs : split_pipe ("exit" :: rest) = some (c1, c2)) (hc1 : ¬c1 = []) :
    (dispatch bg "exit" rest).terminatesInterp = true := by
  unfold dispatch
  rw [hv, hs]
  simp only [if_neg hc1, eq_self_iff_true, if_true]
  cases rest with
  | nil => rfl
  | cons a rest2 =>
    cases hstoi : stoi a
    · simp only [hstoi]
      rfl
    · simp only [hstoi]
      rfl

theorem dispatch_cd_eq (bg : Bool) (rest c1 c2 : List String)
    (hv : validate_redirection ("cd" :: rest) = none)
    (hs : split_pipe ("cd" :: rest) = some (c1, c2)) (hc1 : ¬c1 = []) :
    dispatch bg "cd" rest = .builtinCd rest.head? := by
  unfold dispatch
  rw [hv, hs]
  simp only [if_neg hc1, if_neg (show ¬("cd" : String) = "exit" from by decide),
    eq_self_iff_true, if_true]

theorem dispatch_discarded (bg : Bool) (t0 : String) (rest c2 : List String)
    (hv : validate_redirection (t0 :: rest) = none)
    (hs : split_pipe (t0 :: rest) = some ([], c2)) :
    dispatch bg t0 rest = .discarded := by
  unfold dispatch
  rw [hv, hs]
  simp

theorem specDangling_concat (x : String) (l : List String) :
    specDangling (l ++ [x]) = decide (x = "<" ∨ x = ">") := by
  induction l using specDangling.induct with
  | case1 => rfl
  | case2 t => rfl
  | case3 t u rest ih => exact ih

theorem specOpAfterOp_concat_pipe (l : List String)
    (hso : specOpAfterOp l = false) (hsd : specDangling l = false) :
    specOpAfterOp (l ++ ["|"]) = false := by
  induction l using specOpAfterOp.induct with
  | case1 => rfl
  | case2 t =>
    simp only [specDangling, decide_eq_false_iff_not] at hsd
    simp only [List.singleton_append, specOpAfterOp, Bool.or_eq_false_iff,
      Bool.and_eq_false_iff, decide_eq_false_iff_not]
    constructor
    · exact Or.inl hsd
    · trivial
  | case3 t u rest ih =>
    simp only [specOpAfterOp, Bool.or_eq_false_iff] at hso
    have hstep : specOpAfterOp ((t :: u :: rest) ++ ["|"]) =
        ((decide (t = "<" ∨ t = ">") && isOperator u) ||
          specOpAfterOp ((u :: rest) ++ ["|"])) := rfl
    rw [hstep, Bool.or_eq_false_iff]
    exact ⟨hso.1, ih hso.2 hsd⟩

/-- Appending a trailing `|` to a token list that already validates keeps
it valid: the validator only inspects `<`/`>` placement. -/
theorem validate_append_pipe (l : List String)
    (h : validate_redirection l = none) :
    validate_redirection (l ++ ["|"]) = none := by
  rw [validate_none_iff] at h ⊢
  obtain ⟨h1, h2, h3, h4⟩ := h
  refine ⟨?_, specOpAfterOp_concat_pipe l h2 h1, ?_, ?_⟩
  · rw [specDangling_concat]
    decide
  · rw [List.count_append]
    simpa using h3
  · rw [List.count_append]
    simpa using h4

/-- A leading `|` token is invisible to the validator. -/
theorem validate_cons_pipe (l : List String) :
    validate_redirection ("|" :: l) = validate_redirection l := by
  cases l with
  | nil => decide
  | cons u rest =>
    rw [validate_redirection, if_neg (show ¬(("|" : String) = "<" ∨ ("|" : String) = ">") from by decide)]

theorem stripBg_head (x : String) (xs : List String) (hx : ¬x = "&") :
    ∃ rest1, (stripBg (x :: xs)).2 = x :: rest1 := by
  unfold stripBg
  by_cases h : (x :: xs).getLast? = some "&"
  · rw [if_pos h]
    cases xs with
    | nil =>
      simp only [List.getLast?_singleton, Option.some.injEq] at h
      exact absurd h hx
    | cons y ys => exact ⟨(y :: ys).dropLast, rfl⟩
  · rw [if_neg h]
    exact ⟨xs, rfl⟩

/-- Any validated line whose first token is `exit` ends the interpreter:
`main` returns (or, for an unparsable argument, the uncaught `stoi`
exception aborts the process); no dispatch to the launch paths happens. -/
theorem processTokens_exit_terminates (ts : List String)
    (h1 : ts.head? = some "exit")
    (h2 : validate_redirection (stripBg ts).2 = none)
    (h3 : split_pipe (stripBg ts).2 ≠ none) :
    (processTokens ts).terminatesInterp = true := by
  obtain ⟨xs, rfl⟩ : ∃ xs, ts = "exit" :: xs := by
    cases ts with
    | nil => simp at h1
    | cons a b =>
      have ha : a = "exit" := by simpa using h1
      exact ⟨b, by rw [ha]⟩
  obtain ⟨rest1, hstrip⟩ := stripBg_head "exit" xs (by decide)
  rw [processTokens_strip "exit" "exit" xs rest1 hstrip]
  rw [hstrip] at h2 h3
  obtain ⟨⟨c1, c2⟩, hs⟩ : ∃ p, split_pipe ("exit" :: rest1) = some p := by
    cases hsp : split_pipe ("exit" :: rest1) with
    | none => exact absurd hsp h3
    | some p => exact ⟨p, rfl⟩
  have hc1 : ¬c1 = [] := split_pipe_head_left "exit" rest1 (by decide) c1 c2 hs
  exact dispatch_exit_terminates _ rest1 c1 c2 h2 hs hc1

/-- Any validated line whose first token is `cd` runs the directory change
in the shell process itself; nothing is forked. -/
theorem processTokens_cd_runs (us : List String)
    (h1 : us.head? = some "cd")
    (h2 : validate_redirection (stripBg us).2 = none)
    (h3 : split_pipe (stripBg us).2 ≠ none) :
    (processTokens us).isCdRun = true := by
  obtain ⟨xs, rfl⟩ : ∃ xs, us = "cd" :: xs := by
    cases us with
    | nil => simp at h1
    | cons a b =>
      have ha : a = "cd" := by simpa using h1
      exact ⟨b, by rw [ha]⟩
  obtain ⟨rest1, hstrip⟩ := stripBg_head "cd" xs (by decide)
  rw [processTokens_strip "cd" "cd" xs rest1 hstrip]
  rw [hstrip] at h2 h3
  obtain ⟨⟨c1, c2⟩, hs⟩ : ∃ p, split_pipe ("cd" :: rest1) = some p := by
    cases hsp : split_pipe ("cd" :: rest1) with
    | none => exact absurd hsp h3
    | some p => exact ⟨p, rfl⟩
  have hc1 : ¬c1 = [] := split_pipe_head_left "cd" rest1 (by decide) c1 c2 hs
  rw [dispatch_cd_eq _ rest1 c1 c2 h2 hs hc1]
  rfl

end MiniShell

namespace MiniShell

/-- C1 (counterexample): the tokenizer does not split `>` away from
adjacent non-space characters: `ls>out` lexes as the single token
`ls>out`, not as the claimed three-token sequence, whereas `ls > out`
does lex as three tokens. -/
theorem claim_C1_counterexample :
    tokenize "ls>out" = (["ls>out"], none) ∧
      (tokenize "ls>out").1 ≠ ["ls", ">", "out"] ∧
      tokenize "ls > out" = (["ls", ">", "out"], none) :=
  ⟨by decide, by decide, by decide⟩

/-- C1 (amended): outside quotes the tokenizer splits only at whitespace
and never isolates `<`, `>`, `|`, `&` from adjacent characters: on any
quote-free line the tokens are exactly the maximal whitespace-separated
runs, so `ls>out` is the single token `ls>out` while `ls > out` is
`ls`, `>`, `out`. -/
theorem claim_C1 (s : String) (h : '"' ∉ s.data) :
    tokenize s = (wordsAux s.data [], none) ∧
      tokenize "ls>out" = (["ls>out"], none) ∧
      tokenize "ls > out" = (["ls", ">", "out"], none) :=
  ⟨tokenize_noQuote s h, by decide, by decide⟩

/-- C1 (witness): the amended theorem applied to the line `ls>out`. -/
theorem claim_C1_witness :
    tokenize "ls>out" = (wordsAux ("ls>out" : String).data [], none) :=
  (claim_C1 "ls>out" (by decide)).1

/-- C2: `exit` with the non-integer argument `foo` reaches `stoi`, which
finds no digits and throws; the exception is uncaught, so the model yields
`crash` (abnormal termination), not a reported, recoverable error.  With a
parsed integer argument the interpreter exits with that code, and with no
argument it exits with code 0. -/
theorem claim_C2 :
    processTokens ["exit", "foo"] = .crash ∧
      stoi "foo" = none ∧
      processTokens ["exit", "7"] = .exitShell 7 ∧
      processTokens ["exit"] = .exitShell 0 :=
  ⟨by decide, by decide, by decide, by decide⟩

/-- C3 (counterexample): the line `a |` — exactly one `|` with an empty
right side — is not treated as a syntax error: `split_pipe` returns an
empty right command, `main` copies the left command into it, `has_pipe`
becomes false, and the left side is launched as a single process. -/
theorem claim_C3_counterexample :
    processTokens ["a", "|"] = .launchSingle ["a"] "" "" false ∧
      processTokens ["a", "|"] ≠ .discarded :=
  ⟨by decide, by decide⟩

/-- C3 (amended): a validated line with exactly one `|` and nothing after
it is executed exactly like the same line without the trailing `|` (the
left side runs as a single command; a process is created, no error is
reported); a line with nothing before its `|` is silently discarded, with
no message and no process. -/
theorem claim_C3 (l : List String) (h1 : l ≠ []) (h2 : "|" ∉ l)
    (h3 : l.getLast? ≠ some "&") (h4 : validate_redirection l = none)
    (h5 : l.head? ≠ some "exit") (h6 : l.head? ≠ some "cd") :
    processTokens (l ++ ["|"]) = processTokens l ∧
      processTokens ("|" :: l) = .discarded := by
  obtain ⟨t0, lt, rfl⟩ : ∃ t0 lt, l = t0 :: lt := by
    cases l with
    | nil => exact absurd rfl h1
    | cons a b => exact ⟨a, b, rfl⟩
  have hex : ¬t0 = "exit" := fun hh => h5 (by rw [hh]; rfl)
  have hcd : ¬t0 = "cd" := fun hh => h6 (by rw [hh]; rfl)
  constructor
  · have happ : (t0 :: lt) ++ ["|"] = t0 :: (lt ++ ["|"]) := rfl
    have hlast1 : ¬(t0 :: (lt ++ ["|"])).getLast? = some "&" := by
      rw [← happ, List.getLast?_concat]
      simp
    have hv1 : validate_redirection (t0 :: (lt ++ ["|"])) = none := by
      rw [← happ]
      exact validate_append_pipe _ h4
    have hs1 : split_pipe (t0 :: (lt ++ ["|"])) = some (t0 :: lt, []) := by
      rw [← happ, show (t0 :: lt) ++ ["|"] = (t0 :: lt) ++ "|" :: ([] : List String) from rfl]
      exact split_pipe_single (t0 :: lt) [] h2 (by simp)
    have hs2 : split_pipe (t0 :: lt) = some (t0 :: lt, []) := split_pipe_no_pipe _ h2
    rw [happ, processTokens_eq_dispatch _ _ hlast1, processTokens_eq_dispatch _ _ h3]
    rw [dispatch_single_eq false t0 (lt ++ ["|"]) (t0 :: lt) [] hv1 hs1 (by simp)
      (by simp [resolveCmd2]) hex hcd]
    rw [dispatch_single_eq false t0 lt (t0 :: lt) [] h4 hs2 (by simp)
      (by simp [resolveCmd2]) hex hcd]
  · obtain ⟨y, hy⟩ : ∃ y, (t0 :: lt).getLast? = some y := by
      cases hgl : (t0 :: lt).getLast? with
      | none => exact absurd (List.getLast?_eq_none_iff.mp hgl) (by simp)
      | some y => exact ⟨y, rfl⟩
    have hlast_eq : (("|" : String) :: t0 :: lt).getLast? = (t0 :: lt).getLast? := by
      rw [show (("|" : String) :: t0 :: lt) = ["|"] ++ (t0 :: lt) from rfl,
        List.getLast?_append, hy]
      rfl
    have hlast2 : ¬(("|" : String) :: t0 :: lt).getLast? = some "&" := by
      rw [hlast_eq]
      exact h3
    have hv2 : validate_redirection ("|" :: t0 :: lt) = none := by
      rw [validate_cons_pipe]
      exact h4
    have hs3 : split_pipe ("|" :: t0 :: lt) = some ([], t0 :: lt) := by
      rw [show (("|" : String) :: t0 :: lt) = [] ++ "|" :: (t0 :: lt) from rfl]
      exact split_pipe_single [] (t0 :: lt) (by simp) h2
    rw [processTokens_eq_dispatch _ _ hlast2]
    exact dispatch_discarded false "|" (t0 :: lt) (t0 :: lt) hv2 hs3

/-- C3 (witness): the amended theorem applied to the line `ls |`. -/
theorem claim_C3_witness :
    processTokens (["ls"] ++ ["|"]) = processTokens ["ls"] ∧
      processTokens ("|" :: ["ls"]) = .discarded :=
  claim_C3 ["ls"] (by decide) (by decide) (by decide) (by decide) (by decide) (by decide)

/-- C4: in the pipeline path a left-side `>` is dropped from the argv but
its filename token is NOT dropped: for `ls > out | grep x` the left argv
becomes `[ls, out]`, not `[ls]` as the claim states, and no output file is
recorded for the left side; symmetrically a right-side `<` leaks its
filename into the right argv.  This is evaluated at the failing inputs. -/
theorem claim_C4 :
    processTokens ["ls", ">", "out", "|", "grep", "x"] =
        .launchPipe ["ls", "out"] "" ["grep", "x"] "" false ∧
      cleanLeft ["ls", ">", "out"] "" = (["ls", "out"], "") ∧
      processTokens ["a", "|", "b", "<", "f"] =
        .launchPipe ["a"] "" ["b", "f"] "" false ∧
      cleanRight ["b", "<", "f"] "" = (["b", "f"], "") :=
  ⟨by decide, by decide, by decide, by decide⟩

/-- C5: the redirection validator rejects exactly the three claimed
shapes — a dangling `<`/`>` at the end, a `<`/`>` immediately followed by
an operator, and a duplicated direction anywhere in the full line — and
its messages name the violated rule. -/
theorem claim_C5 (ts : List String) :
    (validate_redirection ts ≠ none ↔
      (specDangling ts = true ∨ specOpAfterOp ts = true ∨
        2 ≤ ts.count "<" ∨ 2 ≤ ts.count ">")) ∧
      validate_redirection ["ls", ">"] = some "Error: > operator missing filename" ∧
      validate_redirection ["ls", ">", ">", "out"] =
        some "Error: > operator followed by another operator" ∧
      validate_redirection ["ls", ">", "a", ">", "b"] =
        some "Error: Multiple output redirections not supported" := by
  refine ⟨?_, by decide, by decide, by decide⟩
  have h := validate_none_iff ts
  constructor
  · intro hne
    by_contra hcon
    push_neg at hcon
    obtain ⟨a, b, c, d⟩ := hcon
    apply hne
    rw [h]
    exact ⟨by simpa using a, by simpa using b, by omega, by omega⟩
  · intro hdis hnone
    rw [h] at hnone
    obtain ⟨a, b, c, d⟩ := hnone
    rcases hdis with hh | hh | hh | hh
    · rw [a] at hh
      exact Bool.false_ne_true hh
    · rw [b] at hh
      exact Bool.false_ne_true hh
    · omega
    · omega

/-- C6: on a validated single-command token sequence the extraction loop
consumes each `<`/`>` together with the following filename token, keeps
every other token in its original order (the cleaned argv is a subsequence
and its length drops by exactly two per redirection), never keeps a
`<`/`>` operator token, and on `cmd < in.txt > out.txt arg` produces argv
`[cmd, arg]` with input `in.txt` and output `out.txt`. -/
theorem claim_C6 (ts : List String) (h1 : validate_redirection ts = none)
    (_h2 : "|" ∉ ts) :
    "<" ∉ (extractRedir ts "" "").1 ∧ ">" ∉ (extractRedir ts "" "").1 ∧
      ((extractRedir ts "" "").1).Sublist ts ∧
      (extractRedir ts "" "").1.length + 2 * (ts.count "<" + ts.count ">") =
        ts.length ∧
      extractRedir ["cmd", "<", "in.txt", ">", "out.txt", "arg"] "" "" =
        (["cmd", "arg"], "in.txt", "out.txt") := by
  have hnd := validate_none_noDangling ts h1
  obtain ⟨ha, hb⟩ := extractRedir_no_redir ts "" "" hnd
  exact ⟨ha, hb, extractRedir_sublist ts "" "", extractRedir_length ts "" "" hnd, by decide⟩

/-- C6 (witness): the theorem applied to `cmd < in.txt > out.txt arg`. -/
theorem claim_C6_witness :
    "<" ∉ (extractRedir ["cmd", "<", "in.txt", ">", "out.txt", "arg"] "" "").1 ∧
      ">" ∉ (extractRedir ["cmd", "<", "in.txt", ">", "out.txt", "arg"] "" "").1 ∧
      ((extractRedir ["cmd", "<", "in.txt", ">", "out.txt", "arg"] "" "").1).Sublist
        ["cmd", "<", "in.txt", ">", "out.txt", "arg"] ∧
      (extractRedir ["cmd", "<", "in.txt", ">", "out.txt", "arg"] "" "").1.length +
        2 * ((["cmd", "<", "in.txt", ">", "out.txt", "arg"] : List String).count "<" +
          (["cmd", "<", "in.txt", ">", "out.txt", "arg"] : List String).count ">") =
        (["cmd", "<", "in.txt", ">", "out.txt", "arg"] : List String).length ∧
      extractRedir ["cmd", "<", "in.txt", ">", "out.txt", "arg"] "" "" =
        (["cmd", "arg"], "in.txt", "out.txt") :=
  claim_C6 ["cmd", "<", "in.txt", ">", "out.txt", "arg"] (by decide) (by decide)

/-- C7: tokenization fails with the unterminated-quote error and zero
tokens exactly when the line has an odd number of `"` characters, and
whitespace inside a quoted span is literal: `"a b" c` lexes to the two
tokens `a b` and `c`. -/
theorem claim_C7 (s : String) :
    (tokenize s = ([], some "Error: Unterminated quote") ↔
      s.data.count '"' % 2 = 1) ∧
      tokenize "\"a b\" c" = (["a b", "c"], none) :=
  ⟨tokenize_error_iff s, by decide⟩

/-- C8: `split_pipe` errors exactly on two or more `|` tokens (and `main`
then drops the line with no process, modeled by the `pipeManyError`
outcome for `a | b | c`); with at most one `|` the tokens before it form
the left command and the tokens after it the right command, in order. -/
theorem claim_C8 (ts pre post us : List String) (h1 : "|" ∉ pre)
    (h2 : "|" ∉ post) (h3 : "|" ∉ us) :
    (split_pipe ts = none ↔ 2 ≤ ts.count "|") ∧
      split_pipe (pre ++ "|" :: post) = some (pre, post) ∧
      split_pipe us = some (us, []) ∧
      processTokens ["a", "|", "b", "|", "c"] = .pipeManyError :=
  ⟨split_pipe_none_iff ts, split_pipe_single pre post h1 h2,
    split_pipe_no_pipe us h3, by decide⟩

/-- C8 (witness): the theorem applied to `a | b | c` and to `x | y`. -/
theorem claim_C8_witness :
    (split_pipe ["a", "|", "b", "|", "c"] = none ↔
      2 ≤ (["a", "|", "b", "|", "c"] : List String).count "|") ∧
      split_pipe (["x"] ++ "|" :: ["y"]) = some (["x"], ["y"]) ∧
      split_pipe ["z"] = some (["z"], []) ∧
      processTokens ["a", "|", "b", "|", "c"] = .pipeManyError :=
  claim_C8 ["a", "|", "b", "|", "c"] ["x"] ["y"] ["z"] (by decide) (by decide) (by decide)

/-- C9: a validated line of the form `l | l` (same tokens on both sides of
one pipe, e.g. `cat | cat`) is classified as a single command: `has_pipe`
compares the two sides for inequality and is false, so exactly one process
is launched with argv `l`, not a two-process pipeline. -/
theorem claim_C9 (l : List String) (h1 : l ≠ [])
    (h2 : validate_redirection (l ++ "|" :: l) = none)
    (h3 : "|" ∉ l) (h4 : l.getLast? ≠ some "&")
    (h5 : l.head? ≠ some "exit") (h6 : l.head? ≠ some "cd") :
    hasPipeFlag l l = false ∧
      processTokens (l ++ "|" :: l) = .launchSingle l "" "" false := by
  have hres : resolveCmd2 l l = l := by
    unfold resolveCmd2
    split <;> rfl
  have hflag : hasPipeFlag l l = false := by
    unfold hasPipeFlag
    rw [hres]
    simp
  refine ⟨hflag, ?_⟩
  obtain ⟨t0, lt, rfl⟩ : ∃ t0 lt, l = t0 :: lt := by
    cases l with
    | nil => exact absurd rfl h1
    | cons a b => exact ⟨a, b, rfl⟩
  have hex : ¬t0 = "exit" := fun hh => h5 (by rw [hh]; rfl)
  have hcd : ¬t0 = "cd" := fun hh => h6 (by rw [hh]; rfl)
  obtain ⟨y, hy⟩ : ∃ y, (t0 :: lt).getLast? = some y := by
    cases hgl : (t0 :: lt).getLast? with
    | none => exact absurd (List.getLast?_eq_none_iff.mp hgl) (by simp)
    | some y => exact ⟨y, rfl⟩
  have happ : (t0 :: lt) ++ "|" :: (t0 :: lt) = t0 :: (lt ++ "|" :: (t0 :: lt)) := rfl
  have hmid : (("|" : String) :: t0 :: lt).getLast? = some y := by
    rw [show (("|" : String) :: t0 :: lt) = ["|"] ++ (t0 :: lt) from rfl,
      List.getLast?_append, hy]
    rfl
  have hlast : ¬(t0 :: (lt ++ "|" :: (t0 :: lt))).getLast? = some "&" := by
    rw [← happ]
    intro hcon
    rw [List.getLast?_append, hmid] at hcon
    rw [show (Option.or (some y) ((t0 :: lt).getLast?)) = some y from rfl] at hcon
    exact h4 (hy.trans hcon)
  have hv : validate_redirection (t0 :: (lt ++ "|" :: (t0 :: lt))) = none := by
    rw [← happ]
    exact h2
  have hs : split_pipe (t0 :: (lt ++ "|" :: (t0 :: lt))) =
      some (t0 :: lt, t0 :: lt) := by
    rw [← happ]
    exact split_pipe_single _ _ h3 h3
  have hcount := (validate_none_iff _).mp h2
  have hclt : "<" ∉ (t0 :: lt) := by
    intro hmem
    have hc := hcount.2.2.1
    rw [List.count_append] at hc
    have h1c : 1 ≤ (t0 :: lt).count "<" := List.count_pos_iff.mpr hmem
    have h2c : (("|" : String) :: t0 :: lt).count "<" = (t0 :: lt).count "<" := by
      simp [List.count_cons]
    omega
  have hcgt : ">" ∉ (t0 :: lt) := by
    intro hmem
    have hc := hcount.2.2.2
    rw [List.count_append] at hc
    have h1c : 1 ≤ (t0 :: lt).count ">" := List.count_pos_iff.mpr hmem
    have h2c : (("|" : String) :: t0 :: lt).count ">" = (t0 :: lt).count ">" := by
      simp [List.count_cons]
    omega
  rw [happ, processTokens_eq_dispatch _ _ hlast]
  rw [dispatch_single_eq false t0 (lt ++ "|" :: (t0 :: lt)) (t0 :: lt) (t0 :: lt)
    hv hs (by simp) hres hex hcd]
  rw [extractRedir_id (t0 :: lt) "" "" hclt hcgt]
  simp

/-- C9 (witness): the theorem applied to the line `cat | cat`. -/
theorem claim_C9_witness :
    hasPipeFlag ["cat"] ["cat"] = false ∧
      processTokens (["cat"] ++ "|" :: ["cat"]) = .launchSingle ["cat"] "" "" false :=
  claim_C9 ["cat"] (by decide) (by decide) (by decide) (by decide) (by decide) (by decide)

/-- C10: built-in detection looks only at the first token of the
(background-stripped, validated, splittable) line: if it is `exit` the
interpreter terminates (normally, or abnormally through the uncaught
`stoi` exception when the next token is not an integer — e.g. `exit | cat`
ends the process) without forking; if it is `cd` the directory change runs
in the shell's own process and nothing is forked, even with pipe or
redirection operators present and before any redirection extraction. -/
theorem claim_C10 (ts us : List String)
    (h1 : ts.head? = some "exit")
    (h2 : validate_redirection (stripBg ts).2 = none)
    (h3 : split_pipe (stripBg ts).2 ≠ none)
    (h4 : us.head? = some "cd")
    (h5 : validate_redirection (stripBg us).2 = none)
    (h6 : split_pipe (stripBg us).2 ≠ none) :
    (processTokens ts).terminatesInterp = true ∧
      (processTokens us).isCdRun = true :=
  ⟨processTokens_exit_terminates ts h1 h2 h3, processTokens_cd_runs us h4 h5 h6⟩

/-- C10 (witness): the theorem applied to `exit | cat` and `cd x | y`. -/
theorem claim_C10_witness :
    (processTokens ["exit", "|", "cat"]).terminatesInterp = true ∧
      (processTokens ["cd", "x", "|", "y"]).isCdRun = true :=
  claim_C10 ["exit", "|", "cat"] ["cd", "x", "|", "y"]
    (by decide) (by decide) (by decide) (by decide) (by decide) (by decide)

end MiniShell
